import Mathlib

/-!
Verification of `crates/executor/src/types.rs`: translation of an execution
engine's call tree (`CallInfo`) into the canonical trace representation
(`FunctionInvocation`, `TransactionTrace`, `StateDiff`).

Shallow embedding conventions:
* `Felt` (the canonical field element) is modelled as `Nat`; the Starknet
  prime modulus is `feltPrime`.
* Engine-side felt-like values (`StarkFelt`, addresses, selectors) are also
  `Nat`; `intoFelt` models the `IntoFelt` codec (a lossless representation
  change between two encodings of the same field element).
* Rust `BTreeMap<usize, MsgToL1>` is modelled as a strictly-sorted
  association list with the same `insert` (replace on equal key) and
  `into_values` (in-order values) semantics.
* Rust `Result<T, TransactionExecutionError>` is `Except TxError T`.
-/

namespace PathfinderExec

/-- The Starknet field modulus: `2^251 + 17 * 2^192 + 1`. -/
def feltPrime : Nat := 2 ^ 251 + 17 * 2 ^ 192 + 1

/-- Modelled from the spec: the Felt Codec (`IntoFelt`, `crates/executor/src/felt.rs`,
not under `src/`). The spec (§4.1, P3) states the conversion between the engine's
field-element encodings and the canonical felt is total and lossless for in-range
values; both sides being residues of the same prime field, the value map is the
identity. -/
def intoFelt (n : Nat) : Nat := n

/-- Big-endian value of a byte slice, as computed by `Felt::from_be_slice`. -/
def beVal (bs : List Nat) : Nat := bs.foldl (fun acc b => acc * 256 + b) 0

/-- Modelled from the spec: `Felt::from_be_slice` (`pathfinder_crypto`, not under
`src/`). The spec (§4.1) says conversion is total exactly for values that fit the
field's modulus; a too-long slice or an out-of-range value fails. -/
def fromBeSlice (bs : List Nat) : Option Nat :=
  if bs.length ≤ 32 ∧ beVal bs < feltPrime then some (beVal bs) else none

/-- `blockifier::execution::entry_point::OrderedL2ToL1Message`:
an order key, and a message with a payload and an Ethereum (20-byte)
destination address, given here as its big-endian byte slice. -/
structure OrderedL2ToL1Message where
  order : Nat
  payload : List Nat
  to_address : List Nat
  deriving Repr, DecidableEq

/-- `blockifier::execution::entry_point::OrderedEvent`: an order key (usize)
plus the event content (keys and data felts). -/
structure OrderedEvent where
  order : Nat
  keys : List Nat
  data : List Nat
  deriving Repr, DecidableEq

/-- `blockifier::execution::entry_point::CallType`. -/
inductive RCallType where
  | Call
  | Delegate
  deriving Repr, DecidableEq

/-- `starknet_api::deprecated_contract_class::EntryPointType`. -/
inductive REntryPointType where
  | External
  | L1Handler
  | Constructor
  deriving Repr, DecidableEq

/-- The fields of `blockifier`'s `CallEntryPoint` used by the translation. -/
structure CallEntryPoint where
  calldata : List Nat
  storage_address : Nat
  entry_point_selector : Nat
  call_type : RCallType
  caller_address : Nat
  class_hash : Option Nat
  entry_point_type : REntryPointType
  deriving Repr, DecidableEq

/-- The fields of `blockifier`'s `CallExecution` used by the translation. -/
structure CallExecution where
  retdata : List Nat
  events : List OrderedEvent
  l2_to_l1_messages : List OrderedL2ToL1Message
  deriving Repr, DecidableEq

/-- `blockifier::execution::entry_point::CallInfo`: one engine call record,
owning its nested inner calls. -/
inductive CallInfo where
  | mk (call : CallEntryPoint) (execution : CallExecution) (inner_calls : List CallInfo)

def CallInfo.call : CallInfo → CallEntryPoint
  | .mk c _ _ => c

def CallInfo.execution : CallInfo → CallExecution
  | .mk _ e _ => e

def CallInfo.inner_calls : CallInfo → List CallInfo
  | .mk _ _ inner => inner

mutual

/-- `CallInfo::into_iter()`: the full enumeration of a call record and all of
its descendants (self first, then each inner call's enumeration). The spec
(§4.3) notes the traversal order is irrelevant to the final output because the
order keys determine it. -/
def CallInfo.flatten : CallInfo → List CallInfo
  | .mk c e inner => .mk c e inner :: CallInfo.flattenList inner

def CallInfo.flattenList : List CallInfo → List CallInfo
  | [] => []
  | ci :: rest => ci.flatten ++ CallInfo.flattenList rest

end

/-- Canonical `Event` (`types.rs` lines 80-85): signed order plus data/keys. -/
structure Event where
  order : Int
  data : List Nat
  keys : List Nat
  deriving Repr, DecidableEq

/-- The Rust `usize as i64` cast: the low 64 bits reinterpreted as two's
complement. -/
def usizeAsI64 (n : Nat) : Int :=
  if n % 2 ^ 64 < 2 ^ 63 then ((n % 2 ^ 64 : Nat) : Int)
  else ((n % 2 ^ 64 : Nat) : Int) - 2 ^ 64

/-- `impl From<OrderedEvent> for Event` (`types.rs` lines 222-241). -/
def Event.from_ (value : OrderedEvent) : Event :=
  { order := usizeAsI64 value.order
    data := value.data.map intoFelt
    keys := value.keys.map intoFelt }

/-- Canonical `MsgToL1` (`types.rs` lines 102-108). -/
structure MsgToL1 where
  order : Nat
  payload : List Nat
  to_address : Nat
  from_address : Nat
  deriving Repr, DecidableEq

/-- `BTreeMap::insert` on a strictly-sorted association list: replaces the
value at an equal key, otherwise inserts at the sorted position. -/
def btreeInsert (k : Nat) (v : α) : List (Nat × α) → List (Nat × α)
  | [] => [(k, v)]
  | (k', v') :: rest =>
    if k < k' then (k, v) :: (k', v') :: rest
    else if k = k' then (k, v) :: rest
    else (k', v') :: btreeInsert k v rest

/-- The `MsgToL1` built for one engine message `m` emitted by call `call`
(`types.rs` lines 252-258): the source address is the emitting call's storage
address; the destination address is decoded from the 20-byte Ethereum address
(`.expect` is modelled by `Option.getD 0`, with unreachability proved
separately). -/
def msgToL1Of (call : CallInfo) (m : OrderedL2ToL1Message) : MsgToL1 :=
  { order := m.order
    payload := m.payload.map intoFelt
    to_address := (fromBeSlice m.to_address).getD 0
    from_address := intoFelt call.call.storage_address }

/-- The `(order, MsgToL1)` pairs inserted into the map by
`ordered_l2_to_l1_messages`, in insertion order: for each call of the full
enumeration, each of its locally emitted messages. -/
def messagePairs (call_info : CallInfo) : List (Nat × MsgToL1) :=
  call_info.flatten.flatMap fun call =>
    call.execution.l2_to_l1_messages.map fun m => (m.order, msgToL1Of call m)

/-- `ordered_l2_to_l1_messages` (`types.rs` lines 243-264): walk the whole
tree, insert every message into a `BTreeMap` keyed by its order, and return
the map's values in ascending key order. -/
def ordered_l2_to_l1_messages (call_info : CallInfo) : List MsgToL1 :=
  ((messagePairs call_info).foldl (fun m p => btreeInsert p.1 p.2 m) []).map Prod.snd

/-- All outbound messages of a call and its descendants, in traversal order. -/
def subtreeMessages (ci : CallInfo) : List OrderedL2ToL1Message :=
  ci.flatten.flatMap fun c => c.execution.l2_to_l1_messages

/-- The order keys of all outbound messages of a call's subtree. -/
def subtreeOrders (ci : CallInfo) : List Nat :=
  (subtreeMessages ci).map OrderedL2ToL1Message.order

/-- `blockifier::transaction::errors::TransactionExecutionError`, restricted to
the ordering errors reachable from this translation (spec §7: the single
`OrderingInconsistency` taxonomy, with conflicting vs. missing order keys). -/
inductive TxError where
  | invalidOrder (order : Nat) (max_order : Nat)
  | unorderedMessage (order : Nat)
  deriving Repr, DecidableEq

/-- Modelled from the spec: `CallInfo::get_sorted_l2_to_l1_payloads_length`
(the engine's ordering validation, in `blockifier`, not under `src/`).
Per spec §4.2 step 1 and §7, it checks that the engine's length/order
bookkeeping for the call and all its descendants is self-consistent, failing
on "conflicting or missing order keys": every order key must be below the
subtree's total message count, and every slot `0..n-1` must be the key of some
message; on success it returns the payload lengths sorted by order key. -/
def get_sorted_l2_to_l1_payloads_length (ci : CallInfo) :
    Except TxError (List Nat) :=
  let msgs := subtreeMessages ci
  let n := msgs.length
  match msgs.find? (fun m => n ≤ m.order) with
  | some m => .error (.invalidOrder m.order n)
  | none =>
    match (List.range n).find? (fun i => ¬ msgs.any (fun m => m.order = i)) with
    | some i => .error (.unorderedMessage i)
    | none =>
      .ok ((List.range n).map fun i =>
        ((msgs.find? (fun m => m.order = i)).map (fun m => m.payload.length)).getD 0)

/-- Canonical `CallType` (`types.rs` lines 74-78). -/
inductive CallType where
  | Call
  | Delegate
  deriving Repr, DecidableEq

/-- `impl From<blockifier CallType> for CallType` (`types.rs` lines 201-209). -/
def CallType.from_ : RCallType → CallType
  | .Call => .Call
  | .Delegate => .Delegate

/-- Canonical `EntryPointType` (`types.rs` lines 18-23). -/
inductive EntryPointType where
  | Constructor
  | External
  | L1Handler
  deriving Repr, DecidableEq

/-- `impl From<starknet_api EntryPointType> for EntryPointType`
(`types.rs` lines 211-220). -/
def EntryPointType.from_ : REntryPointType → EntryPointType
  | .External => .External
  | .L1Handler => .L1Handler
  | .Constructor => .Constructor

/-- Canonical `FunctionInvocation` (`types.rs` lines 87-100), with its fields
in source order; recursive ownership of `internal_calls` forces an inductive
rather than a structure. -/
inductive FunctionInvocation where
  | mk (calldata : List Nat) (contract_address : Nat) (selector : Nat)
       (call_type : CallType) (caller_address : Nat)
       (internal_calls : List FunctionInvocation) (class_hash : Option Nat)
       (entry_point_type : EntryPointType) (events : List Event)
       (messages : List MsgToL1) (result : List Nat)

def FunctionInvocation.calldata : FunctionInvocation → List Nat
  | .mk cd _ _ _ _ _ _ _ _ _ _ => cd

def FunctionInvocation.contract_address : FunctionInvocation → Nat
  | .mk _ ca _ _ _ _ _ _ _ _ _ => ca

def FunctionInvocation.selector : FunctionInvocation → Nat
  | .mk _ _ s _ _ _ _ _ _ _ _ => s

def FunctionInvocation.call_type : FunctionInvocation → CallType
  | .mk _ _ _ ct _ _ _ _ _ _ _ => ct

def FunctionInvocation.caller_address : FunctionInvocation → Nat
  | .mk _ _ _ _ ca _ _ _ _ _ _ => ca

def FunctionInvocation.internal_calls : FunctionInvocation → List FunctionInvocation
  | .mk _ _ _ _ _ ic _ _ _ _ _ => ic

def FunctionInvocation.class_hash : FunctionInvocation → Option Nat
  | .mk _ _ _ _ _ _ ch _ _ _ _ => ch

def FunctionInvocation.entry_point_type : FunctionInvocation → EntryPointType
  | .mk _ _ _ _ _ _ _ ept _ _ _ => ept

def FunctionInvocation.events : FunctionInvocation → List Event
  | .mk _ _ _ _ _ _ _ _ ev _ _ => ev

def FunctionInvocation.messages : FunctionInvocation → List MsgToL1
  | .mk _ _ _ _ _ _ _ _ _ ms _ => ms

def FunctionInvocation.result : FunctionInvocation → List Nat
  | .mk _ _ _ _ _ _ _ _ _ _ r => r

mutual

/-- `impl TryFrom<CallInfo> for FunctionInvocation` (`types.rs` lines
144-199): validate the subtree's message ordering, reorder the subtree's
messages, recursively translate the inner calls (short-circuiting on the
first error, as `collect::<Result<Vec<_>, _>>` does), and only then build the
node. -/
def FunctionInvocation.tryFrom (call_info : CallInfo) :
    Except TxError FunctionInvocation :=
  match call_info with
  | .mk call execution inner_calls =>
    match get_sorted_l2_to_l1_payloads_length (.mk call execution inner_calls) with
    | .error e => .error e
    | .ok _ =>
      let messages := ordered_l2_to_l1_messages (.mk call execution inner_calls)
      match FunctionInvocation.tryFromList inner_calls with
      | .error e => .error e
      | .ok internal_calls =>
        .ok (.mk (call.calldata.map intoFelt)
          (intoFelt call.storage_address)
          (intoFelt call.entry_point_selector)
          (CallType.from_ call.call_type)
          (intoFelt call.caller_address)
          internal_calls
          (call.class_hash.map intoFelt)
          (EntryPointType.from_ call.entry_point_type)
          (execution.events.map Event.from_)
          messages
          (execution.retdata.map intoFelt))

/-- `inner_calls.into_iter().map(TryInto::try_into).collect::<Result<Vec<_>, _>>()`:
translate the children in order, stopping at the first error. -/
def FunctionInvocation.tryFromList : List CallInfo → Except TxError (List FunctionInvocation)
  | [] => .ok []
  | ci :: rest =>
    match FunctionInvocation.tryFrom ci with
    | .error e => .error e
    | .ok f =>
      match FunctionInvocation.tryFromList rest with
      | .error e => .error e
      | .ok fs => .ok (f :: fs)

end

/-- `ExecuteInvocation` (`types.rs` lines 54-58): a tagged sum — either a
(possibly absent) root invocation or a revert reason, never both. -/
inductive ExecuteInvocation where
  | functionInvocation (inv : Option FunctionInvocation)
  | revertedReason (reason : String)

/-- `StorageDiff` (`types.rs` lines 120-124). -/
structure StorageDiff where
  key : Nat
  value : Nat
  deriving Repr, DecidableEq

/-- `DeployedContract` (`types.rs` lines 126-130). -/
structure DeployedContract where
  address : Nat
  class_hash : Nat
  deriving Repr, DecidableEq

/-- `DeclaredSierraClass` (`types.rs` lines 132-136). -/
structure DeclaredSierraClass where
  class_hash : Nat
  compiled_class_hash : Nat
  deriving Repr, DecidableEq

/-- `ReplacedClass` (`types.rs` lines 138-142). -/
structure ReplacedClass where
  contract_address : Nat
  class_hash : Nat
  deriving Repr, DecidableEq

/-- `StateDiff` (`types.rs` lines 110-118). `BTreeMap` fields are modelled as
association lists and the `HashSet<ClassHash>` as a duplicate-free list with
set-insert semantics (`StateDiff.declareDeprecatedClass`). -/
structure StateDiff where
  storage_diffs : List (Nat × List StorageDiff)
  deployed_contracts : List DeployedContract
  deprecated_declared_classes : List Nat
  declared_classes : List DeclaredSierraClass
  nonces : List (Nat × Nat)
  replaced_classes : List ReplacedClass

/-- Modelled from the spec: inserting one deprecated declared-class hash into
the state diff, as the State Diff Normalizer (spec §4.5, not under `src/`)
does via `HashSet::insert` on the `deprecated_declared_classes` field declared
in `types.rs` line 114 — inserting an element already in the set leaves the
set unchanged. -/
def StateDiff.declareDeprecatedClass (d : StateDiff) (class_hash : Nat) : StateDiff :=
  { d with deprecated_declared_classes :=
      if class_hash ∈ d.deprecated_declared_classes then d.deprecated_declared_classes
      else d.deprecated_declared_classes ++ [class_hash] }

/-- `InvokeTransactionTrace` (`types.rs` lines 60-66). -/
structure InvokeTransactionTrace where
  validate_invocation : Option FunctionInvocation
  execute_invocation : ExecuteInvocation
  fee_transfer_invocation : Option FunctionInvocation
  state_diff : StateDiff

/-- The common shape of a rose tree, used to compare the structure of the
input call tree with the structure of the output invocation tree. -/
inductive Shape where
  | node (children : List Shape)

mutual

def CallInfo.shape : CallInfo → Shape
  | .mk _ _ inner => .node (CallInfo.shapeList inner)

def CallInfo.shapeList : List CallInfo → List Shape
  | [] => []
  | c :: rest => c.shape :: CallInfo.shapeList rest

end

mutual

def FunctionInvocation.shape : FunctionInvocation → Shape
  | .mk _ _ _ _ _ internal _ _ _ _ _ => .node (FunctionInvocation.shapeList internal)

def FunctionInvocation.shapeList : List FunctionInvocation → List Shape
  | [] => []
  | f :: rest => f.shape :: FunctionInvocation.shapeList rest

end

mutual

/-- The full enumeration of an output invocation node and its descendants,
self first, mirroring `CallInfo.flatten`. -/
def FunctionInvocation.flatten : FunctionInvocation → List FunctionInvocation
  | .mk cd ca s ct cr internal ch ept ev ms r =>
    .mk cd ca s ct cr internal ch ept ev ms r :: FunctionInvocation.flattenList internal

def FunctionInvocation.flattenList : List FunctionInvocation → List FunctionInvocation
  | [] => []
  | f :: rest => f.flatten ++ FunctionInvocation.flattenList rest

end

/-- Structural induction for the nested call tree: to prove a property of
every call record it suffices to prove it for a node assuming it for all of
the node's inner calls. -/
def CallInfo.inductionOn (P : CallInfo → Prop)
    (mk : ∀ c e inner, (∀ ci ∈ inner, P ci) → P (.mk c e inner)) :
    (ci : CallInfo) → P ci
  | .mk c e inner => mk c e inner (fun ci _ => CallInfo.inductionOn P mk ci)

/-! ### Concrete inputs used to witness the non-vacuity of the theorems -/

/-- A concrete engine call header. -/
def wEntry : CallEntryPoint := ⟨[1], 7, 2, .Call, 0, none, .External⟩

/-- A second concrete engine call header, with a different storage address. -/
def wEntryInner : CallEntryPoint := ⟨[], 8, 2, .Call, 7, some 3, .External⟩

/-- A concrete outbound message with order key `o` and an all-zero 20-byte
Ethereum destination address. -/
def wMsg (o : Nat) : OrderedL2ToL1Message := ⟨o, [5], List.replicate 20 0⟩

/-- A concrete call tree on which the whole translation succeeds: the root
emits the message with key 1, its first child emits the message with key 0
and its second child emits nothing. -/
def wTree : CallInfo :=
  .mk wEntry ⟨[9], [⟨0, [4], [5]⟩], [wMsg 1]⟩
    [.mk wEntryInner ⟨[], [], [wMsg 0]⟩ [], .mk wEntryInner ⟨[], [], []⟩ []]

/-- A concrete call tree in which the root and its child emit messages with
the same order key 0. -/
def wTreeDup : CallInfo :=
  .mk wEntry ⟨[], [], [wMsg 0]⟩ [.mk wEntryInner ⟨[], [], [wMsg 0]⟩ []]

/-- The output message built by the merge for the child of `wTree` that emits
the key-0 message: payload `[5]`, zero destination, source address 8 (the
child's storage address). -/
def wMsgOut : MsgToL1 := ⟨0, [5], 0, 8⟩

/-- The translation of the first child of `wTree`. -/
def wInvChild1 : FunctionInvocation :=
  .mk [] 8 2 .Call 7 [] (some 3) .External [] [⟨0, [5], 0, 8⟩] []

/-- The translation of the second child of `wTree`. -/
def wInvChild2 : FunctionInvocation :=
  .mk [] 8 2 .Call 7 [] (some 3) .External [] [] []

/-- The translation of `wTree`: its message list merges the whole subtree's
messages in ascending key order. -/
def wInv : FunctionInvocation :=
  .mk [1] 7 2 .Call 0 [wInvChild1, wInvChild2] none .External [⟨0, [5], [4]⟩]
    [⟨0, [5], 0, 8⟩, ⟨1, [5], 0, 7⟩] [9]

/-- The map built by the insertion loop of `ordered_l2_to_l1_messages`,
starting from an arbitrary map state. -/
def insertionFold {α : Type} (init : List (Nat × α)) (pairs : List (Nat × α)) :
    List (Nat × α) :=
  pairs.foldl (fun m p => btreeInsert p.1 p.2 m) init

/-- The empty state diff, used to witness the deduplication property. -/
def emptyStateDiff : StateDiff := ⟨[], [], [], [], [], []⟩

/-! ### The sorted association list behind `BTreeMap<usize, MsgToL1>` -/

theorem mem_btreeInsert {α : Type} {k : Nat} {v : α} :
    ∀ {l : List (Nat × α)} {p : Nat × α}, p ∈ btreeInsert k v l → p = (k, v) ∨ p ∈ l := by
  intro l
  induction l with
  | nil => intro p hp; simp [btreeInsert] at hp; exact Or.inl hp
  | cons q rest ih =>
    obtain ⟨k', v'⟩ := q
    intro p hp
    simp only [btreeInsert] at hp
    by_cases h1 : k < k'
    · simp only [if_pos h1, List.mem_cons] at hp
      rcases hp with h | h | h
      · exact Or.inl h
      · exact Or.inr (by simp [h])
      · exact Or.inr (List.mem_cons_of_mem _ h)
    · by_cases h2 : k = k'
      · simp only [if_neg h1, if_pos h2, List.mem_cons] at hp
        rcases hp with h | h
        · exact Or.inl h
        · exact Or.inr (List.mem_cons_of_mem _ h)
      · simp only [if_neg h1, if_neg h2, List.mem_cons] at hp
        rcases hp with h | h
        · exact Or.inr (by simp [h])
        · rcases ih h with h' | h'
          · exact Or.inl h'
          · exact Or.inr (List.mem_cons_of_mem _ h')

theorem self_mem_btreeInsert {α : Type} {k : Nat} {v : α} :
    ∀ {l : List (Nat × α)}, (k, v) ∈ btreeInsert k v l := by
  intro l
  induction l with
  | nil => simp [btreeInsert]
  | cons q rest ih =>
    obtain ⟨k', v'⟩ := q
    simp only [btreeInsert]
    by_cases h1 : k < k'
    · simp [if_pos h1]
    · by_cases h2 : k = k'
      · simp [if_neg h1, if_pos h2]
      · simp only [if_neg h1, if_neg h2]
        exact List.mem_cons_of_mem _ ih

theorem mem_btreeInsert_of_mem {α : Type} {k : Nat} {v : α} :
    ∀ {l : List (Nat × α)} {p : Nat × α}, p ∈ l → p.1 ≠ k → p ∈ btreeInsert k v l := by
  intro l
  induction l with
  | nil => intro p hp; cases hp
  | cons q rest ih =>
    obtain ⟨k', v'⟩ := q
    intro p hp hne
    simp only [btreeInsert]
    by_cases h1 : k < k'
    · exact by simp only [if_pos h1]; exact List.mem_cons_of_mem _ hp
    · by_cases h2 : k = k'
      · simp only [if_neg h1, if_pos h2]
        rcases List.mem_cons.mp hp with h | h
        · exact absurd (by simp [h, h2]) hne
        · exact List.mem_cons_of_mem _ h
      · simp only [if_neg h1, if_neg h2]
        rcases List.mem_cons.mp hp with h | h
        · exact by simp [h]
        · exact List.mem_cons_of_mem _ (ih h hne)

theorem keys_btreeInsert_sorted {α : Type} {k : Nat} {v : α} :
    ∀ {l : List (Nat × α)}, ((l.map Prod.fst).Sorted (· < ·)) →
      (((btreeInsert k v l).map Prod.fst).Sorted (· < ·)) := by
  intro l
  induction l with
  | nil => intro _; simp [btreeInsert]
  | cons q rest ih =>
    obtain ⟨k', v'⟩ := q
    intro hs
    rw [List.map_cons, List.sorted_cons] at hs
    obtain ⟨hlt, hrest⟩ := hs
    simp only [btreeInsert]
    by_cases h1 : k < k'
    · simp only [if_pos h1, List.map_cons, List.sorted_cons]
      refine ⟨?_, hlt, hrest⟩
      intro b hb
      rcases List.mem_cons.mp hb with h | h
      · omega
      · exact lt_trans h1 (hlt b h)
    · by_cases h2 : k = k'
      · simp only [if_neg h1, if_pos h2, List.map_cons, List.sorted_cons]
        exact ⟨fun b hb => by rw [h2]; exact hlt b hb, hrest⟩
      · simp only [if_neg h1, if_neg h2, List.map_cons, List.sorted_cons]
        refine ⟨?_, ih hrest⟩
        intro b hb
        rcases List.mem_map.mp hb with ⟨p, hp, rfl⟩
        rcases mem_btreeInsert hp with h | h
        · subst h; omega
        · exact hlt _ (List.mem_map_of_mem Prod.fst h)

/-! ### The insertion fold of `ordered_l2_to_l1_messages` -/

theorem mem_insertionFold {α : Type} :
    ∀ {pairs init : List (Nat × α)} {p : Nat × α},
      p ∈ insertionFold init pairs → p ∈ init ∨ p ∈ pairs := by
  intro pairs
  induction pairs with
  | nil => intro init p hp; exact Or.inl hp
  | cons q rest ih =>
    intro init p hp
    rcases ih hp with h | h
    · rcases mem_btreeInsert h with h' | h'
      · exact Or.inr (by simp [h'])
      · exact Or.inl h'
    · exact Or.inr (List.mem_cons_of_mem _ h)

theorem insertionFold_keys_sorted {α : Type} :
    ∀ {pairs init : List (Nat × α)},
      ((init.map Prod.fst).Sorted (· < ·)) →
      (((insertionFold init pairs).map Prod.fst).Sorted (· < ·)) := by
  intro pairs
  induction pairs with
  | nil => intro init h; exact h
  | cons q rest ih => intro init h; exact ih (keys_btreeInsert_sorted h)

theorem mem_insertionFold_of_not_key {α : Type} :
    ∀ {pairs init : List (Nat × α)} {p : Nat × α},
      p ∈ init → p.1 ∉ pairs.map Prod.fst → p ∈ insertionFold init pairs := by
  intro pairs
  induction pairs with
  | nil => intro init p hp _; exact hp
  | cons q rest ih =>
    intro init p hp hk
    simp only [List.map_cons, List.mem_cons] at hk
    push_neg at hk
    exact ih (mem_btreeInsert_of_mem hp hk.1) hk.2

theorem mem_insertionFold_of_nodup {α : Type} :
    ∀ {pairs init : List (Nat × α)} {p : Nat × α},
      (pairs.map Prod.fst).Nodup → p ∈ pairs → p ∈ insertionFold init pairs := by
  intro pairs
  induction pairs with
  | nil => intro init p _ hp; cases hp
  | cons q rest ih =>
    intro init p hnd hp
    rw [List.map_cons, List.nodup_cons] at hnd
    rcases List.mem_cons.mp hp with h | h
    · subst h
      show p ∈ insertionFold (btreeInsert p.1 p.2 init) rest
      exact mem_insertionFold_of_not_key self_mem_btreeInsert hnd.1
    · show p ∈ insertionFold (btreeInsert q.1 q.2 init) rest
      exact ih hnd.2 h

/-! ### Facts about `messagePairs` -/

theorem messagePairs_snd_order (ci : CallInfo) :
    ∀ p ∈ messagePairs ci, (p.2).order = p.1 := by
  intro p hp
  simp only [messagePairs, List.mem_flatMap, List.mem_map] at hp
  obtain ⟨c, _, m, _, rfl⟩ := hp
  rfl

theorem messagePairs_keys (ci : CallInfo) :
    (messagePairs ci).map Prod.fst = subtreeOrders ci := by
  simp [messagePairs, subtreeOrders, subtreeMessages, List.map_flatMap, List.map_map,
    Function.comp_def]

/-- The order keys of the output messages are exactly the keys of the map
built by the insertion loop. -/
theorem ordered_l2_to_l1_messages_order_eq_keys (ci : CallInfo) :
    (ordered_l2_to_l1_messages ci).map MsgToL1.order
      = (insertionFold [] (messagePairs ci)).map Prod.fst := by
  rw [ordered_l2_to_l1_messages, List.map_map]
  show (insertionFold [] (messagePairs ci)).map (MsgToL1.order ∘ Prod.snd) = _
  refine List.map_congr_left ?_
  intro p hp
  rcases mem_insertionFold hp with h | h
  · cases h
  · exact messagePairs_snd_order ci p h

/-- C1: for every call tree in which every outbound message's order key is
globally unique across the whole tree, the message sequence produced by
`ordered_l2_to_l1_messages` (and attached to the root `FunctionInvocation` by
`TryFrom<CallInfo>`) is sorted strictly ascending by order key, regardless of
the tree's shape or the traversal order used internally. -/
theorem ordered_messages_sorted_of_unique_keys (ci : CallInfo)
    (h : (subtreeOrders ci).Nodup) :
    ((ordered_l2_to_l1_messages ci).map MsgToL1.order).Sorted (· < ·) := by
  rw [ordered_l2_to_l1_messages_order_eq_keys]
  exact insertionFold_keys_sorted (by simp)

theorem ordered_messages_sorted_of_unique_keys_witness :
    (subtreeOrders wTree).Nodup ∧
      ((ordered_l2_to_l1_messages wTree).map MsgToL1.order).Sorted (· < ·) :=
  ⟨by decide, ordered_messages_sorted_of_unique_keys wTree (by decide)⟩

/-- C5: every outbound message in the output of `ordered_l2_to_l1_messages`
is the translation of a message of some call of the tree, and its
`from_address` is the storage address of that emitting call — not the root's
address and not a value taken from the message record itself. -/
theorem messages_from_address_of_emitting_call (ci : CallInfo) (m : MsgToL1)
    (h : m ∈ ordered_l2_to_l1_messages ci) :
    ∃ c ∈ ci.flatten, ∃ om ∈ c.execution.l2_to_l1_messages,
      m = msgToL1Of c om ∧ m.from_address = intoFelt c.call.storage_address := by
  rw [ordered_l2_to_l1_messages] at h
  obtain ⟨p, hp, rfl⟩ := List.mem_map.mp h
  rcases @mem_insertionFold MsgToL1 (messagePairs ci) [] _ hp with h' | h'
  · cases h'
  · simp only [messagePairs, List.mem_flatMap, List.mem_map] at h'
    obtain ⟨c, hc, om, hom, rfl⟩ := h'
    exact ⟨c, hc, om, hom, rfl, rfl⟩

theorem messages_from_address_of_emitting_call_witness :
    wMsgOut ∈ ordered_l2_to_l1_messages wTree ∧
      ∃ c ∈ wTree.flatten, ∃ om ∈ c.execution.l2_to_l1_messages,
        wMsgOut = msgToL1Of c om ∧ wMsgOut.from_address = intoFelt c.call.storage_address :=
  ⟨by decide, messages_from_address_of_emitting_call wTree wMsgOut (by decide)⟩

/-! ### Consequences of the ordering validation -/

theorem nodup_of_length_range_subset (l : List Nat)
    (hsub : List.range l.length ⊆ l) : l.Nodup := by
  have hsp : List.Subperm (List.range l.length) l :=
    (List.nodup_range l.length).subperm hsub
  have hperm : (List.range l.length).Perm l :=
    hsp.perm_of_length_le (by rw [List.length_range])
  exact hperm.nodup (List.nodup_range l.length)

/-- If the engine's ordering validation succeeds, the order keys across the
whole subtree are globally unique (they are exactly `0..n-1`). -/
theorem validation_ok_nodup (ci : CallInfo) (v : List Nat)
    (h : get_sorted_l2_to_l1_payloads_length ci = .ok v) :
    (subtreeOrders ci).Nodup := by
  rw [get_sorted_l2_to_l1_payloads_length] at h
  split at h
  · cases h
  · split at h
    · cases h
    · rename_i hf1 hf2
      have hcover : ∀ i ∈ List.range (subtreeMessages ci).length,
          ∃ m ∈ subtreeMessages ci, m.order = i := by
        intro i hi
        have := List.find?_eq_none.mp hf2 i hi
        simpa [List.any_eq_true] using this
      apply nodup_of_length_range_subset
      intro i hi
      rw [subtreeOrders, List.length_map] at hi
      obtain ⟨m, hm, rfl⟩ := hcover i hi
      exact List.mem_map_of_mem OrderedL2ToL1Message.order hm

/-- `collect::<Result<Vec<_>, _>>` succeeds exactly when every child
translation succeeds, pairing children in order. -/
theorem tryFromList_ok_forall₂ :
    ∀ {l : List CallInfo} {fs : List FunctionInvocation},
      FunctionInvocation.tryFromList l = .ok fs →
      List.Forall₂ (fun c g => FunctionInvocation.tryFrom c = .ok g) l fs := by
  intro l
  induction l with
  | nil =>
    intro fs h
    simp only [FunctionInvocation.tryFromList] at h
    cases h
    exact .nil
  | cons c rest ih =>
    intro fs h
    cases hc : FunctionInvocation.tryFrom c with
    | error e => simp [FunctionInvocation.tryFromList, hc] at h
    | ok f =>
      cases hr : FunctionInvocation.tryFromList rest with
      | error e => simp [FunctionInvocation.tryFromList, hc, hr] at h
      | ok fs' =>
        simp only [FunctionInvocation.tryFromList, hc, hr] at h
        cases h
        exact .cons hc (ih hr)

theorem forall₂_mem_left {α β : Type} {R : α → β → Prop} :
    ∀ {l : List α} {fs : List β}, List.Forall₂ R l fs →
      ∀ a ∈ l, ∃ b ∈ fs, R a b := by
  intro l fs h
  induction h with
  | nil => intro a ha; cases ha
  | cons hr _ iht =>
    intro a ha
    rcases List.mem_cons.mp ha with rfl | h'
    · exact ⟨_, List.mem_cons_self _ _, hr⟩
    · obtain ⟨b, hb, hab⟩ := iht a h'
      exact ⟨b, List.mem_cons_of_mem _ hb, hab⟩

/-- Inverting a successful `try_from`: the validation and every child
translation succeeded, and the node is built from their results. -/
theorem tryFrom_ok_inversion (call : CallEntryPoint) (execution : CallExecution)
    (inner_calls : List CallInfo) (f : FunctionInvocation)
    (h : FunctionInvocation.tryFrom (.mk call execution inner_calls) = .ok f) :
    ∃ v fs, get_sorted_l2_to_l1_payloads_length (.mk call execution inner_calls) = .ok v ∧
      FunctionInvocation.tryFromList inner_calls = .ok fs ∧
      f = .mk (call.calldata.map intoFelt) (intoFelt call.storage_address)
        (intoFelt call.entry_point_selector) (CallType.from_ call.call_type)
        (intoFelt call.caller_address) fs (call.class_hash.map intoFelt)
        (EntryPointType.from_ call.entry_point_type) (execution.events.map Event.from_)
        (ordered_l2_to_l1_messages (.mk call execution inner_calls))
        (execution.retdata.map intoFelt) := by
  cases hv : get_sorted_l2_to_l1_payloads_length (.mk call execution inner_calls) with
  | error e => simp [FunctionInvocation.tryFrom, hv] at h
  | ok v =>
    cases hl : FunctionInvocation.tryFromList inner_calls with
    | error e => simp [FunctionInvocation.tryFrom, hv, hl] at h
    | ok fs =>
      refine ⟨v, fs, rfl, rfl, ?_⟩
      simp only [FunctionInvocation.tryFrom, hv, hl] at h
      cases h
      rfl

/-- C2: if two outbound messages anywhere in the call tree carry the same
order key, the translation surfaces an error instead of silently dropping one
of the colliding messages: `try_from` (which runs the ordering validation
before using the merge of `ordered_l2_to_l1_messages`) returns an error on
every tree whose order keys are not globally unique. -/
theorem tryFrom_errors_on_duplicate_order (ci : CallInfo)
    (h : ¬ (subtreeOrders ci).Nodup) :
    ∃ e, FunctionInvocation.tryFrom ci = .error e := by
  obtain ⟨call, execution, inner_calls⟩ := ci
  cases hv : get_sorted_l2_to_l1_payloads_length (.mk call execution inner_calls) with
  | error e => exact ⟨e, by simp [FunctionInvocation.tryFrom, hv]⟩
  | ok v => exact absurd (validation_ok_nodup _ v hv) h

theorem tryFrom_errors_on_duplicate_order_witness :
    ¬ (subtreeOrders wTreeDup).Nodup ∧
      ∃ e, FunctionInvocation.tryFrom wTreeDup = .error e :=
  ⟨by decide, tryFrom_errors_on_duplicate_order wTreeDup (by decide)⟩

/-- C3: `TryFrom<CallInfo>` is fail-fast and atomic: a validation error is
returned unchanged; after a successful validation, an error from the
children's translations is returned unchanged; a failing child makes the
whole translation fail; and on success the validation succeeded and every
child was translated, in order. -/
theorem tryFrom_fail_fast_atomic (call : CallEntryPoint) (execution : CallExecution)
    (inner_calls : List CallInfo) :
    (∀ e, get_sorted_l2_to_l1_payloads_length (.mk call execution inner_calls) = .error e →
      FunctionInvocation.tryFrom (.mk call execution inner_calls) = .error e) ∧
    (∀ e v, get_sorted_l2_to_l1_payloads_length (.mk call execution inner_calls) = .ok v →
      FunctionInvocation.tryFromList inner_calls = .error e →
      FunctionInvocation.tryFrom (.mk call execution inner_calls) = .error e) ∧
    (∀ ci e, ci ∈ inner_calls → FunctionInvocation.tryFrom ci = .error e →
      ∃ e', FunctionInvocation.tryFrom (.mk call execution inner_calls) = .error e') ∧
    (∀ f, FunctionInvocation.tryFrom (.mk call execution inner_calls) = .ok f →
      (∃ v, get_sorted_l2_to_l1_payloads_length (.mk call execution inner_calls) = .ok v) ∧
      List.Forall₂ (fun c g => FunctionInvocation.tryFrom c = .ok g)
        inner_calls f.internal_calls) := by
  refine ⟨?_, ?_, ?_, ?_⟩
  · intro e he
    simp [FunctionInvocation.tryFrom, he]
  · intro e v hv hl
    simp [FunctionInvocation.tryFrom, hv, hl]
  · intro ci e hci he
    cases hv : get_sorted_l2_to_l1_payloads_length (.mk call execution inner_calls) with
    | error e' => exact ⟨e', by simp [FunctionInvocation.tryFrom, hv]⟩
    | ok v =>
      cases hl : FunctionInvocation.tryFromList inner_calls with
      | error e'' => exact ⟨e'', by simp [FunctionInvocation.tryFrom, hv, hl]⟩
      | ok fs =>
        obtain ⟨g, _, hg⟩ := forall₂_mem_left (tryFromList_ok_forall₂ hl) ci hci
        rw [he] at hg
        cases hg
  · intro f hf
    obtain ⟨v, fs, hv, hl, rfl⟩ := tryFrom_ok_inversion call execution inner_calls f hf
    exact ⟨⟨v, hv⟩, tryFromList_ok_forall₂ hl⟩

theorem tryFrom_fail_fast_atomic_witness :
    get_sorted_l2_to_l1_payloads_length wTreeDup = .error (.unorderedMessage 1) ∧
      FunctionInvocation.tryFrom wTreeDup = .error (.unorderedMessage 1) :=
  ⟨rfl, (tryFrom_fail_fast_atomic wEntry ⟨[], [], [wMsg 0]⟩
    [.mk wEntryInner ⟨[], [], [wMsg 0]⟩ []]).1 (.unorderedMessage 1) rfl⟩

/-! ### Structural fidelity of the recursive translation -/

theorem shapeList_eq_map : ∀ l : List CallInfo, CallInfo.shapeList l = l.map CallInfo.shape := by
  intro l
  induction l with
  | nil => rfl
  | cons c rest ih => simp [CallInfo.shapeList, ih]

theorem invShapeList_eq_map :
    ∀ l : List FunctionInvocation, FunctionInvocation.shapeList l = l.map FunctionInvocation.shape := by
  intro l
  induction l with
  | nil => rfl
  | cons f rest ih => simp [FunctionInvocation.shapeList, ih]

theorem forall₂_map_eq {α β γ : Type} {R : α → β → Prop} (f : α → γ) (g : β → γ) :
    ∀ {l₁ : List α} {l₂ : List β}, List.Forall₂ R l₁ l₂ →
      (∀ a ∈ l₁, ∀ b, R a b → g b = f a) → l₂.map g = l₁.map f := by
  intro l₁ l₂ h
  induction h with
  | nil => intro _; rfl
  | cons hr _ iht =>
    intro hp
    simp only [List.map_cons]
    rw [hp _ (List.mem_cons_self _ _) _ hr,
      iht fun a ha b hb => hp a (List.mem_cons_of_mem _ ha) b hb]

theorem forall₂_imp_mem {α β : Type} {R S : α → β → Prop} :
    ∀ {l₁ : List α} {l₂ : List β}, List.Forall₂ R l₁ l₂ →
      (∀ a ∈ l₁, ∀ b, R a b → S a b) → List.Forall₂ S l₁ l₂ := by
  intro l₁ l₂ h
  induction h with
  | nil => intro _; exact .nil
  | cons hr _ iht =>
    intro hp
    exact .cons (hp _ (List.mem_cons_self _ _) _ hr)
      (iht fun a ha b hb => hp a (List.mem_cons_of_mem _ ha) b hb)

/-- C4: on success the output has exactly one child per input inner call, in
the engine's call-index order, and recursively at every depth the tree shape
of the output matches the tree shape of the input: no call is dropped or
duplicated. -/
theorem tryFrom_structural_fidelity : ∀ (ci : CallInfo) (f : FunctionInvocation),
    FunctionInvocation.tryFrom ci = .ok f →
    f.shape = ci.shape ∧
    List.Forall₂ (fun c g => FunctionInvocation.tryFrom c = .ok g)
      ci.inner_calls f.internal_calls := by
  intro ci
  induction ci using CallInfo.inductionOn with
  | mk c e inner ih =>
    intro f hf
    obtain ⟨v, fs, hv, hl, rfl⟩ := tryFrom_ok_inversion c e inner f hf
    have hfa := tryFromList_ok_forall₂ hl
    refine ⟨?_, hfa⟩
    show Shape.node (FunctionInvocation.shapeList fs) = Shape.node (CallInfo.shapeList inner)
    rw [invShapeList_eq_map, shapeList_eq_map]
    exact congrArg Shape.node
      (forall₂_map_eq CallInfo.shape FunctionInvocation.shape hfa
        fun c' hc' g hg => (ih c' hc' g hg).1)

theorem tryFrom_structural_fidelity_witness :
    FunctionInvocation.tryFrom wTree = .ok wInv ∧
      (wInv.shape = wTree.shape ∧
        List.Forall₂ (fun c g => FunctionInvocation.tryFrom c = .ok g)
          wTree.inner_calls wInv.internal_calls) :=
  ⟨rfl, tryFrom_structural_fidelity wTree wInv rfl⟩

/-! ### Every node carries the merged messages of its subtree -/

theorem forall₂_flattenList {R : CallInfo → FunctionInvocation → Prop} :
    ∀ {l : List CallInfo} {fs : List FunctionInvocation},
      List.Forall₂ (fun c g => List.Forall₂ R c.flatten g.flatten) l fs →
      List.Forall₂ R (CallInfo.flattenList l) (FunctionInvocation.flattenList fs) := by
  intro l fs h
  induction h with
  | nil => exact .nil
  | cons hr _ iht => exact List.rel_append hr iht

theorem tryFrom_flatten_forall₂ : ∀ (ci : CallInfo) (f : FunctionInvocation),
    FunctionInvocation.tryFrom ci = .ok f →
    List.Forall₂ (fun c g => FunctionInvocation.tryFrom c = .ok g) ci.flatten f.flatten := by
  intro ci
  induction ci using CallInfo.inductionOn with
  | mk c e inner ih =>
    intro f hf
    obtain ⟨v, fs, hv, hl, hfeq⟩ := tryFrom_ok_inversion c e inner f hf
    subst hfeq
    refine List.Forall₂.cons hf ?_
    exact forall₂_flattenList
      (forall₂_imp_mem (tryFromList_ok_forall₂ hl) fun c' hc' g hg => ih c' hc' g hg)

/-- On success, a node's `messages` field is the merged key-ordered sequence
of its own subtree, and (the keys being unique once validation passed) every
message of the subtree appears in it. -/
theorem tryFrom_ok_messages (c : CallInfo) (g : FunctionInvocation)
    (h : FunctionInvocation.tryFrom c = .ok g) :
    g.messages = ordered_l2_to_l1_messages c ∧
    ∀ p ∈ messagePairs c, p.2 ∈ g.messages := by
  obtain ⟨call, execution, inner⟩ := c
  obtain ⟨v, fs, hv, hl, rfl⟩ := tryFrom_ok_inversion call execution inner g h
  refine ⟨rfl, ?_⟩
  intro p hp
  have hnd : (subtreeOrders (CallInfo.mk call execution inner)).Nodup :=
    validation_ok_nodup _ v hv
  rw [← messagePairs_keys] at hnd
  show p.2 ∈ ordered_l2_to_l1_messages (CallInfo.mk call execution inner)
  exact List.mem_map_of_mem Prod.snd (mem_insertionFold_of_nodup hnd hp)

/-- C10: for every call tree on which `TryFrom<CallInfo>` succeeds, every
node of the output — not only the root — carries in its `messages` field the
merged, key-ordered message sequence of its entire subtree, and every message
emitted anywhere in that subtree appears in it (hence a descendant's message
appears in the message list of every one of its ancestors). -/
theorem tryFrom_nodes_carry_subtree_messages (ci : CallInfo) (f : FunctionInvocation)
    (h : FunctionInvocation.tryFrom ci = .ok f) :
    List.Forall₂ (fun c g =>
      g.messages = ordered_l2_to_l1_messages c ∧
      ∀ p ∈ messagePairs c, p.2 ∈ g.messages) ci.flatten f.flatten :=
  (tryFrom_flatten_forall₂ ci f h).imp fun c g hcg => tryFrom_ok_messages c g hcg

theorem tryFrom_nodes_carry_subtree_messages_witness :
    FunctionInvocation.tryFrom wTree = .ok wInv ∧
      List.Forall₂ (fun c g =>
        g.messages = ordered_l2_to_l1_messages c ∧
        ∀ p ∈ messagePairs c, p.2 ∈ g.messages) wTree.flatten wInv.flatten :=
  ⟨rfl, tryFrom_nodes_carry_subtree_messages wTree wInv rfl⟩

/-! ### Totality of the Ethereum-address conversion -/

theorem beVal_foldl_lt : ∀ (bs : List Nat) (acc : Nat), (∀ b ∈ bs, b < 256) →
    bs.foldl (fun a b => a * 256 + b) acc < (acc + 1) * 256 ^ bs.length := by
  intro bs
  induction bs with
  | nil => intro acc _; simpa using Nat.lt_succ_self acc
  | cons b rest ih =>
    intro acc hb
    have h1 := ih (acc * 256 + b) fun x hx => hb x (List.mem_cons_of_mem _ hx)
    have hb0 : b < 256 := hb b (List.mem_cons_self _ _)
    have h2 : (acc * 256 + b + 1) * 256 ^ rest.length ≤ ((acc + 1) * 256) * 256 ^ rest.length :=
      Nat.mul_le_mul_right _ (by omega)
    have h3 : ((acc + 1) * 256) * 256 ^ rest.length = (acc + 1) * 256 ^ (b :: rest).length := by
      rw [List.length_cons, pow_succ]; ring
    exact lt_of_lt_of_le h1 (le_of_le_of_eq h2 h3)

/-- C6: converting a 20-byte Ethereum destination address to a felt never
fails: `Felt::from_be_slice` succeeds on every 20-byte slice, so the `expect`
branch in `ordered_l2_to_l1_messages` is unreachable. -/
theorem fromBeSlice_total_on_eth_addresses (bs : List Nat)
    (hlen : bs.length = 20) (hb : ∀ b ∈ bs, b < 256) :
    fromBeSlice bs = some (beVal bs) := by
  have h := beVal_foldl_lt bs 0 hb
  rw [hlen] at h
  have hval : beVal bs < 256 ^ 20 := by simpa [beVal] using h
  show (if bs.length ≤ 32 ∧ beVal bs < feltPrime then some (beVal bs) else none)
    = some (beVal bs)
  rw [if_pos]
  exact ⟨by omega, lt_trans hval (by norm_num [feltPrime])⟩

theorem fromBeSlice_total_on_eth_addresses_witness :
    (List.replicate 20 (0 : Nat)).length = 20 ∧
      (∀ b ∈ List.replicate 20 (0 : Nat), b < 256) ∧
      fromBeSlice (List.replicate 20 (0 : Nat)) = some (beVal (List.replicate 20 (0 : Nat))) :=
  ⟨by decide, by decide, fromBeSlice_total_on_eth_addresses _ (by decide) (by decide)⟩

/-! ### Mutual exclusivity of the Invoke execution outcome -/

/-- C7: an Invoke trace's execution outcome is never simultaneously a present
root invocation and a revert reason: every `ExecuteInvocation` value is
either a `FunctionInvocation` variant (possibly holding no invocation) or a
`RevertedReason` string, mutually exclusively. -/
theorem execute_invocation_mutually_exclusive (t : InvokeTransactionTrace) :
    ((∃ inv, t.execute_invocation = ExecuteInvocation.functionInvocation inv) ∧
        ¬ ∃ r, t.execute_invocation = ExecuteInvocation.revertedReason r) ∨
      ((∃ r, t.execute_invocation = ExecuteInvocation.revertedReason r) ∧
        ¬ ∃ inv, t.execute_invocation = ExecuteInvocation.functionInvocation inv) := by
  cases h : t.execute_invocation with
  | functionInvocation inv => exact Or.inl ⟨⟨inv, rfl⟩, by simp⟩
  | revertedReason r => exact Or.inr ⟨⟨r, rfl⟩, by simp⟩

/-! ### Deduplication of deprecated declared classes -/

/-- C8: inserting the same deprecated declared-class hash into a `StateDiff`
twice yields exactly one entry: the insertion is idempotent, and two separate
diff records declaring the same class hash normalize to a single element. -/
theorem declareDeprecatedClass_dedup (d : StateDiff) (class_hash : Nat) :
    (d.declareDeprecatedClass class_hash).declareDeprecatedClass class_hash
        = d.declareDeprecatedClass class_hash ∧
      (class_hash ∉ d.deprecated_declared_classes →
        (((d.declareDeprecatedClass class_hash).declareDeprecatedClass
          class_hash).deprecated_declared_classes).count class_hash = 1) := by
  constructor
  · by_cases hm : class_hash ∈ d.deprecated_declared_classes
    · simp [StateDiff.declareDeprecatedClass, hm]
    · simp [StateDiff.declareDeprecatedClass, hm]
  · intro hnot
    simp [StateDiff.declareDeprecatedClass, hnot, List.count_append,
      List.count_eq_zero.mpr hnot]

theorem declareDeprecatedClass_dedup_witness :
    (0 : Nat) ∉ emptyStateDiff.deprecated_declared_classes ∧
      (((emptyStateDiff.declareDeprecatedClass 0).declareDeprecatedClass
        0).deprecated_declared_classes).count 0 = 1 :=
  ⟨by decide, (declareDeprecatedClass_dedup emptyStateDiff 0).2 (by decide)⟩

/-! ### The event order key cast -/

/-- C9, counterexample: the claim that the `usize`-to-`i64` cast in the
`Event` conversion loses nothing for every order value fails at
`order = 2^63`: the cast wraps to a negative number there. -/
theorem event_order_cast_wraps_at_2pow63 :
    (Event.from_ ⟨2 ^ 63, [], []⟩).order ≠ ((2 ^ 63 : Nat) : Int) := by
  decide

/-- C9, amended: the `Event` conversion copies the engine's order key
verbatim for every order value below `2^63` (the full `i64` range); at
`2^63` and above the `as i64` cast wraps. -/
theorem event_order_verbatim_below_2pow63 (value : OrderedEvent)
    (h : value.order < 2 ^ 63) :
    (Event.from_ value).order = (value.order : Int) := by
  have h64 : value.order % 2 ^ 64 = value.order := Nat.mod_eq_of_lt (by omega)
  show usizeAsI64 value.order = (value.order : Int)
  simp only [usizeAsI64, h64, if_pos h]

theorem event_order_verbatim_below_2pow63_witness :
    (5 : Nat) < 2 ^ 63 ∧ (Event.from_ ⟨5, [], []⟩).order = ((5 : Nat) : Int) :=
  ⟨by decide, event_order_verbatim_below_2pow63 ⟨5, [], []⟩ (by decide)⟩

end PathfinderExec
